import Mathlib

/-
Verification development for the dokuwiki2wikijs converter (src/main.py).

Text is modelled as `List Char` (ASCII inputs; the Python regex classes
`\s`, `.` etc. are modelled for the ASCII range the tool is used on).
Each regex substitution of `_dk_to_md_regex` is embedded as a scanner that
reproduces the leftmost-match / greedy / lazy behaviour of the concrete
pattern it translates.  The MULTILINE heading pattern is scanned over the
whole document: it is attempted exactly at line starts (the `^` anchor),
its greedy `\s*` may swallow newlines so a match can span lines, and the
`$` anchor requires the backreference to end just before a newline or at
the end of the input.  The table pattern (`^\^(.*?)\^$`, where `.`
excludes newlines and the other atoms are literal) cannot span lines and
is applied per line.
The filesystem driver (`_write_file`, `convert_site`, `_copy_media`) is
embedded as explicit state passing over a record of files and
directories, with the raised `FileExistsError` modelled as an
`Option (List Char)` error component carrying the offending path.
-/

namespace Dokuwiki2Wikijs

/-- ASCII whitespace, the characters matched by the Python regex class
`\s` and stripped by `str.strip` / `str.rstrip` on ASCII text. -/
def isSpaceChar (c : Char) : Bool :=
  c == ' ' || c == '\t' || c == '\n' || c == '\r' || c == '\x0b' || c == '\x0c'

/-- Strip leading whitespace (Python `lstrip`, regex `\s*` prefix). -/
def ltrimWS (s : List Char) : List Char := s.dropWhile isSpaceChar

/-- Strip trailing whitespace (Python `rstrip`). -/
def rtrimWS : List Char → List Char
  | [] => []
  | c :: cs =>
    let r := rtrimWS cs
    if r = [] then (if isSpaceChar c then [] else [c]) else c :: r

/-- Strip whitespace on both ends (Python `strip`). -/
def trimWS (s : List Char) : List Char := rtrimWS (ltrimWS s)

/-- `startsWith pat s` : does `s` begin with `pat`? -/
def startsWith : List Char → List Char → Bool
  | [], _ => true
  | _ :: _, [] => false
  | p :: ps, c :: cs => decide (p = c) && startsWith ps cs

/-- Split `s` at the first occurrence of `pat`, returning the part before
the occurrence and the part after it (the occurrence removed); `none` if
`pat` does not occur.  This is the leftmost match of a lazy `(.*?)pat`. -/
def splitAtFirst (pat : List Char) : List Char → Option (List Char × List Char)
  | [] => if startsWith pat [] then some ([], []) else none
  | c :: cs =>
    if startsWith pat (c :: cs) then some ([], (c :: cs).drop pat.length)
    else (splitAtFirst pat cs).map (fun pr => (c :: pr.1, pr.2))

/-- Does `pat` occur as a contiguous substring of `s`? -/
def containsSub (pat : List Char) : List Char → Bool
  | [] => startsWith pat []
  | c :: cs => startsWith pat (c :: cs) || containsSub pat cs

/-- Python `str.split(sep)` for a one-character separator: always returns
at least one (possibly empty) piece. -/
def splitOnChar (sep : Char) : List Char → List (List Char)
  | [] => [[]]
  | c :: cs =>
    let r := splitOnChar sep cs
    if c = sep then [] :: r
    else
      match r with
      | h :: t => (c :: h) :: t
      | [] => [[c]]

/-- Python `sep.join(parts)`. -/
def joinSep (sep : List Char) : List (List Char) → List Char
  | [] => []
  | [x] => x
  | x :: xs => x ++ sep ++ joinSep sep xs

/-- Lines of a text, split on the newline character. -/
def splitLines (s : List Char) : List (List Char) := splitOnChar '\n' s

/-- Rejoin lines with newline characters. -/
def joinLines (ls : List (List Char)) : List Char := joinSep ['\n'] ls

/-- Embeds `_dokuwiki_id_to_path`: split the id on `:` and rejoin the
parts with `/`, appending the given extension suffix.  (The Python
`is_media` keyword is unused by the source function and is omitted.) -/
def dokuwiki_id_to_path (doku_id : List Char) (suffix : List Char) : List Char :=
  joinSep ['/'] (splitOnChar ':' doku_id) ++ suffix

/-!  ### Heading transformer

Embeds `_HEADING_RE = ^(={2,6})\s*(.*?)\s*\1$` (MULTILINE) with the
replacement `'#' * len(group 1) ++ " " ++ group 2`, over the whole
document.  The `^` anchor restricts match attempts to line starts; the
two `\s*` are greedy and may swallow newlines (so a match can span
lines), group 2 is lazy and cannot contain a newline, and `\1$`
requires the closing run of `k` equal signs to end just before a
newline or at the end of the document.

Backtracking collapses to a deterministic computation: the first `\s*`
is forced to the maximal whitespace run (a shorter choice only shifts
whitespace into group 2 or the second `\s*` and yields no new match
ends), the second `\s*` is forced to the maximal whitespace run at its
position (any shorter choice leaves a whitespace character where the
backreference's `=` must be), and the lazy group 2 then grows from the
empty string, stopping at the first position where `\s*={k}$` matches
and failing when it would have to cross a newline. -/

/-- The `$` anchor of the MULTILINE pattern: end of the input, or
immediately before a newline. -/
def headingEnd : List Char → Bool
  | [] => true
  | c :: _ => decide (c = '\n')

/-- One position of the lazy group-2 search: does `\s*={k}$` match
here?  The greedy `\s*` is forced to the maximal whitespace run, since
the backreference must follow with an equal sign.  Returns the input
remaining after the backreference. -/
def headingCheck (k : Nat) (v : List Char) : Option (List Char) :=
  let v2 := v.dropWhile isSpaceChar
  if startsWith (List.replicate k '=') v2 && headingEnd (v2.drop k)
  then some (v2.drop k) else none

/-- Lazy group 2 of the heading pattern for backreference length `k`:
grows until `\s*={k}$` matches; it cannot cross a newline.  Returns the
group and the input remaining after the match. -/
def headingG2 (k : Nat) : List Char → Option (List Char × List Char)
  | [] => (headingCheck k []).map (fun rem => ([], rem))
  | c :: cs =>
    match headingCheck k (c :: cs) with
    | some rem => some ([], rem)
    | none =>
      if c = '\n' then none
      else (headingG2 k cs).map (fun pr => (c :: pr.1, pr.2))

/-- Try the heading pattern at a line start with group 1 fixed to `k`
equal signs: the first greedy `\s*` is forced to the maximal whitespace
run after them. -/
def headingTryK (k : Nat) (s : List Char) : Option (List Char × List Char) :=
  if startsWith (List.replicate k '=') s then
    headingG2 k (List.dropWhile isSpaceChar (s.drop k))
  else none

/-- Greedy `={2,6}`: try group-1 lengths from `k` down to 2, first hit wins. -/
def headingTryDown : Nat → List Char → Option (Nat × List Char × List Char)
  | 0, _ => none
  | 1, _ => none
  | k + 2, s =>
    match headingTryK (k + 2) s with
    | some (g, rem) => some (k + 2, g, rem)
    | none => headingTryDown (k + 1) s

/-- Match attempt of the heading pattern at a line-start position:
the replacement text and the input remaining after the match. -/
def headingMatch (s : List Char) : Option (List Char × List Char) :=
  match headingTryDown 6 s with
  | some (k, g, rem) => some (List.replicate k '#' ++ ' ' :: g, rem)
  | none => none

/-- `re.sub` scan for the `^`-anchored heading pattern: the pattern is
attempted exactly at line starts (position 0, or just after a newline);
on a match the replacement is emitted and scanning resumes after the
backreference (`$` is zero-width, so a following newline stays in the
input; the position after the match is never a line start since the
preceding character is an equal sign). -/
def headingScanAux : Nat → Bool → List Char → List Char
  | 0, _, s => s
  | _ + 1, _, [] => []
  | n + 1, atStart, c :: cs =>
    if atStart then
      match headingMatch (c :: cs) with
      | some (rep2, rest) => rep2 ++ headingScanAux n false rest
      | none => c :: headingScanAux n (decide (c = '\n')) cs
    else c :: headingScanAux n (decide (c = '\n')) cs

/-- The heading substitution over the whole document. -/
def headingSub (s : List Char) : List Char := headingScanAux s.length true s

/-!  ### Generic scanner for the non-anchored substitutions

`re.sub` tries the pattern at every position from left to right; on a
match it emits the replacement and resumes after the matched span.  Each
pattern below is embedded as a `try` function returning the replacement
and the rest of the input after the match.  Every pattern consumes at
least one character when it matches, so fuel equal to the input length
suffices. -/

/-- Fuelled scanning substitution. -/
def scanSubAux (tryM : List Char → Option (List Char × List Char)) :
    Nat → List Char → List Char
  | 0, s => s
  | _ + 1, [] => []
  | n + 1, c :: cs =>
    match tryM (c :: cs) with
    | some (rep, rest) => rep ++ scanSubAux tryM n rest
    | none => c :: scanSubAux tryM n cs

/-- `re.sub`-style substitution of a pattern embedded as `tryM`. -/
def scanSub (tryM : List Char → Option (List Char × List Char))
    (s : List Char) : List Char :=
  scanSubAux tryM s.length s

/-- Embeds the bold rule `\*\*([^*]+)\*\*` with replacement `**\1**`
(the replacement reproduces the matched text verbatim). -/
def boldTry : List Char → Option (List Char × List Char)
  | '*' :: '*' :: rest =>
    let g1 := rest.takeWhile (fun c => decide (c ≠ '*'))
    let r1 := rest.dropWhile (fun c => decide (c ≠ '*'))
    if g1 = [] then none
    else
      match r1 with
      | '*' :: '*' :: tail => some ('*' :: '*' :: (g1 ++ ['*', '*']), tail)
      | _ => none
  | _ => none

/-- Embeds the italic rule `//([^/]+)//` with replacement `*\1*`. -/
def italicTry : List Char → Option (List Char × List Char)
  | '/' :: '/' :: rest =>
    let g1 := rest.takeWhile (fun c => decide (c ≠ '/'))
    let r1 := rest.dropWhile (fun c => decide (c ≠ '/'))
    if g1 = [] then none
    else
      match r1 with
      | '/' :: '/' :: tail => some ('*' :: (g1 ++ ['*']), tail)
      | _ => none
  | _ => none

/-- Drop one leading newline, the greedy `\n?` after the opening tag. -/
def dropLeadingNL : List Char → List Char
  | [] => []
  | c :: r => if c = '\n' then r else c :: r

/-- Drop one trailing newline, the greedy `\n?` before the closing tag. -/
def dropTrailingNL : List Char → List Char
  | [] => []
  | c :: cs => if c = '\n' ∧ cs = [] then [] else c :: dropTrailingNL cs

/-- Parse the rest of the opening tag `<code(?: [^>]*)?>` after the
literal `<code`; returns the input after the closing `>`. -/
def codeOpenAttrs : List Char → Option (List Char)
  | [] => none
  | c :: r =>
    if c = ' ' then
      match r.dropWhile (fun x => decide (x ≠ '>')) with
      | '>' :: tail => some tail
      | _ => none
    else if c = '>' then some r
    else none

/-- The closing tag `</code>` as a character list. -/
def codeClose : List Char := ['<', '/', 'c', 'o', 'd', 'e', '>']

/-- Embeds the code-block rule
`<code(?: [^>]*)?>\n?(.*?)\n?</code>` (DOTALL) with replacement
three backticks, newline, `group1.rstrip()`, newline, three backticks.
The lazy group ends at the first `</code>`; the trailing greedy `\n?`
takes one newline immediately before it when present. -/
def codeTry (s : List Char) : Option (List Char × List Char) :=
  if startsWith ['<', 'c', 'o', 'd', 'e'] s then
    match codeOpenAttrs (s.drop 5) with
    | none => none
    | some body0 =>
      let body1 := dropLeadingNL body0
      match splitAtFirst codeClose body1 with
      | none => none
      | some (interior, tail) =>
        some ('`' :: '`' :: '`' :: '\n' ::
              (rtrimWS (dropTrailingNL interior) ++ '\n' :: '`' :: '`' :: ['`']),
              tail)
  else none

/-- Embeds the nowiki rule `<nowiki>(.*?)</nowiki>` (DOTALL) with the
same fenced replacement as the code-block rule (no `\n?` handling). -/
def nowikiTry (s : List Char) : Option (List Char × List Char) :=
  if startsWith ['<', 'n', 'o', 'w', 'i', 'k', 'i', '>'] s then
    match splitAtFirst ['<', '/', 'n', 'o', 'w', 'i', 'k', 'i', '>'] (s.drop 8) with
    | none => none
    | some (g1, tail) =>
      some ('`' :: '`' :: '`' :: '\n' :: (rtrimWS g1 ++ '\n' :: '`' :: '`' :: ['`']),
            tail)
  else none

/-- Embeds `_replace_media`: build the markdown image / link for a media
target; the path is the id with no extension suffix. -/
def replace_media (target : List Char) (alt : List Char) (embed : Bool) : List Char :=
  let md_path := dokuwiki_id_to_path target []
  if embed then '!' :: '[' :: (alt ++ ']' :: '(' :: (md_path ++ [')']))
  else '[' :: (alt ++ ']' :: '(' :: (md_path ++ [')']))

/-- Embeds `_replace_links`: label defaults to the target
(`match.group("label") or target`); the path gets the `.md` suffix. -/
def replace_links (target : List Char) (label : Option (List Char)) : List Char :=
  let lab := label.getD target
  '[' :: (lab ++ ']' :: '(' :: (dokuwiki_id_to_path target ['.', 'm', 'd'] ++ [')']))

/-- Embeds the image rule
`{{(?P<target>[^}|]+)(?:\|(?P<alt>[^}]+))?}}` with replacement via
`_replace_media(match, page_ns, embed=True)`. -/
def imageTry : List Char → Option (List Char × List Char)
  | '{' :: '{' :: rest =>
    let t := rest.takeWhile (fun c => decide (c ≠ '}') && decide (c ≠ '|'))
    let r1 := rest.dropWhile (fun c => decide (c ≠ '}') && decide (c ≠ '|'))
    if t = [] then none
    else
      match r1 with
      | '|' :: r2 =>
        let alt := r2.takeWhile (fun c => decide (c ≠ '}'))
        let r3 := r2.dropWhile (fun c => decide (c ≠ '}'))
        if alt = [] then none
        else
          match r3 with
          | '}' :: '}' :: tail => some (replace_media t alt true, tail)
          | _ => none
      | '}' :: '}' :: tail => some (replace_media t [] true, tail)
      | _ => none
  | _ => none

/-- Embeds the link rule
`\[\[(?P<target>[^]|]+)(?:\|(?P<label>[^]]+))?]]` with replacement via
`_replace_links`. -/
def linkTry : List Char → Option (List Char × List Char)
  | '[' :: '[' :: rest =>
    let t := rest.takeWhile (fun c => decide (c ≠ ']') && decide (c ≠ '|'))
    let r1 := rest.dropWhile (fun c => decide (c ≠ ']') && decide (c ≠ '|'))
    if t = [] then none
    else
      match r1 with
      | '|' :: r2 =>
        let lab := r2.takeWhile (fun c => decide (c ≠ ']'))
        let r3 := r2.dropWhile (fun c => decide (c ≠ ']'))
        if lab = [] then none
        else
          match r3 with
          | ']' :: ']' :: tail => some (replace_links t (some lab), tail)
          | _ => none
      | ']' :: ']' :: tail => some (replace_links t none, tail)
      | _ => none
  | _ => none

/-- Match of the table pattern `^\^(.*?)\^$` (MULTILINE) on one line:
group 1 is everything strictly between the first character `^` and the
final character, which must also be `^`. -/
def tableTry (line : List Char) : Option (List Char) :=
  match line with
  | '^' :: rest =>
    match rest.reverse with
    | '^' :: midRev => some midRev.reverse
    | _ => none
  | _ => none

/-- One line under the table substitution: replacement
`"| " ++ " | ".join(col.strip() for col in g1.split("^")) ++ " |"`. -/
def tableLine (line : List Char) : List Char :=
  match tableTry line with
  | some g1 =>
    '|' :: ' ' :: (joinSep [' ', '|', ' '] ((splitOnChar '^' g1).map trimWS)
      ++ [' ', '|'])
  | none => line

/-- The table substitution over a whole text, line by line. -/
def tableSub (s : List Char) : List Char :=
  joinLines ((splitLines s).map tableLine)

/-- Embeds `_dk_to_md_regex`: the eight substitutions in source order
(heading, bold, italic, code block, nowiki, image, link, table).
The page namespace argument is passed through, and as in the source it
does not influence any substitution. -/
def dk_to_md_regex (source : List Char) (page_ns : List Char) : List Char :=
  let t1 := headingSub source
  let t2 := scanSub boldTry t1
  let t3 := scanSub italicTry t2
  let t4 := scanSub codeTry t3
  let t5 := scanSub nowikiTry t4
  let t6 := scanSub imageTry t5
  let t7 := scanSub linkTry t6
  let _ := page_ns
  tableSub t7

/-!  ### Filesystem driver

The output tree is modelled as a record of written files (path to
content, later writes shadowing earlier ones) and created directories.
Paths are relative to the output root.  A raised `FileExistsError` is
the `some path` error component; `none` means normal return. -/

/-- The output filesystem state. -/
structure FS where
  files : List (List Char × List Char)
  dirs : List (List Char)
deriving DecidableEq

/-- `Path.exists()` for the model: a file or directory is present. -/
def pathExists (fs : FS) (p : List Char) : Bool :=
  fs.files.any (fun e => decide (e.1 = p)) || fs.dirs.any (fun d => decide (d = p))

/-- Is a file present at `p`? -/
def hasFile (fs : FS) (p : List Char) : Bool :=
  fs.files.any (fun e => decide (e.1 = p))

/-- Content lookup in an association list, first (most recent) binding wins. -/
def lookupA : List (List Char × List Char) → List Char → Option (List Char)
  | [], _ => none
  | e :: rest, p => if e.1 = p then some e.2 else lookupA rest p

/-- Content of the file at `p`, if any. -/
def lookupFile (fs : FS) (p : List Char) : Option (List Char) :=
  lookupA fs.files p

/-- The directories `path.parent.mkdir(parents=True)` creates: every
proper ancestor of `p` (each prefix of `p` ending just before a `/`). -/
def parentDirsAux (acc : List Char) : List Char → List (List Char)
  | [] => []
  | c :: rest =>
    if c = '/' then acc :: parentDirsAux (acc ++ [c]) rest
    else parentDirsAux (acc ++ [c]) rest

/-- Ancestor directories of a relative path. -/
def parentDirs (p : List Char) : List (List Char) := parentDirsAux [] p

/-- Embeds `_write_file`: the existence check is performed first; when it
fires the error is raised with the state untouched (no directory has
been created, no bytes written); otherwise parents are created and the
file is written (overwriting any previous content). -/
def write_file (fs : FS) (path content : List Char) (force : Bool) :
    Option (List Char) × FS :=
  if pathExists fs path && !force then (some path, fs)
  else (none, ⟨(path, content) :: fs.files, parentDirs path ++ fs.dirs⟩)

/-- Destination of a media asset relative to the output root:
`dest_root / "_media" / rel`. -/
def mediaDestRel (rel : List Char) : List Char :=
  '_' :: 'm' :: 'e' :: 'd' :: 'i' :: 'a' :: '/' :: rel

/-- Embeds `_copy_media`: each asset (media-root-relative path and
bytes) is copied under `_media`; an existing destination without force
is silently skipped and the loop continues.  No error is possible. -/
def copy_media : List (List Char × List Char) → Bool → FS → FS
  | [], _, fs => fs
  | (rel, content) :: rest, force, fs =>
    let dest := mediaDestRel rel
    if pathExists fs dest && !force then copy_media rest force fs
    else copy_media rest force ⟨(dest, content) :: fs.files, parentDirs dest ++ fs.dirs⟩

/-- Embeds the page loop of `convert_site`: pages are given as
(page id, source text) in enumeration order; each is converted with the
built-in engine and written; a raised `FileExistsError` propagates,
aborting the loop. -/
def convert_pages : List (List Char × List Char) → Bool → FS →
    Option (List Char) × FS
  | [], _, fs => (none, fs)
  | (page_id, src) :: rest, force, fs =>
    let md_rel := dokuwiki_id_to_path page_id ['.', 'm', 'd']
    match write_file fs md_rel (dk_to_md_regex src page_id) force with
    | (some e, fs2) => (some e, fs2)
    | (none, fs2) => convert_pages rest force fs2

/-- Embeds `convert_site` (with a media directory present): convert all
pages, then copy the media tree; an error aborts before any media copy. -/
def convert_site (pages assets : List (List Char × List Char)) (force : Bool)
    (fs : FS) : Option (List Char) × FS :=
  match convert_pages pages force fs with
  | (some e, fs2) => (some e, fs2)
  | (none, fs2) => (none, copy_media assets force fs2)

/-!  ### Auxiliary notions used by the properties -/

/-- `':'` replaced by `'/'` — the effect of `_dokuwiki_id_to_path` on one
character (proved below). -/
def colonSlash (c : Char) : Char := if c = ':' then '/' else c

/-- A scanner pattern matches nowhere in `s` (at no start position). -/
def noMatchScan (tryM : List Char → Option (List Char × List Char))
    (s : List Char) : Bool :=
  (List.range (s.length + 1)).all (fun i => (tryM (s.drop i)).isNone)

/-- No substitution of the pipeline finds a match anywhere in `s`:
every construct in `s` is unmatched or malformed.  (For the heading
rule the predicate demands failure of `headingMatch` at every offset,
which subsumes the line-start offsets the `^` anchor allows; for the
table rule, whose pattern cannot span lines, failure on every line.) -/
def unconvertible (s : List Char) : Bool :=
  noMatchScan headingMatch s &&
  noMatchScan boldTry s && noMatchScan italicTry s && noMatchScan codeTry s &&
  noMatchScan nowikiTry s && noMatchScan imageTry s && noMatchScan linkTry s &&
  ((splitLines s).all (fun l => (tableTry l).isNone))

/-- A well-formed page identifier in the sense of the specification: a
nonempty sequence of nonempty segments, none containing the delimiter. -/
def wellFormedSegs (segs : List (List Char)) : Bool :=
  decide (segs ≠ []) && segs.all (fun s => decide (s ≠ []) && decide (':' ∉ s))

/-- The identifier string of a segment sequence (segments joined by `:`). -/
def idOfSegs (segs : List (List Char)) : List Char :=
  joinSep [':'] segs

/-!  ## Lemma layer -/

theorem scanSubAux_nil (tryM : List Char → Option (List Char × List Char))
    (n : Nat) : scanSubAux tryM n [] = [] := by
  cases n <;> rfl

theorem startsWith_self_append (p r : List Char) :
    startsWith p (p ++ r) = true := by
  induction p with
  | nil => rfl
  | cons c cs ih => simp [startsWith, ih]

theorem startsWith_iff_exists {p s : List Char} :
    startsWith p s = true ↔ ∃ r, s = p ++ r := by
  induction p generalizing s with
  | nil => simp [startsWith]
  | cons c cs ih =>
    cases s with
    | nil => simp [startsWith]
    | cons d ds =>
      simp only [startsWith, Bool.and_eq_true, decide_eq_true_eq, ih,
        List.cons_append]
      constructor
      · rintro ⟨h1, r, h2⟩
        exact ⟨r, by simp [h1, h2]⟩
      · rintro ⟨r, h⟩
        injection h with h1 h2
        exact ⟨h1.symm, r, h2⟩

theorem takeWhile_append_all {p : Char → Bool} {a : List Char} (b : List Char)
    (h : ∀ c ∈ a, p c = true) :
    List.takeWhile p (a ++ b) = a ++ List.takeWhile p b := by
  induction a with
  | nil => simp
  | cons c cs ih =>
    have hc : p c = true := h c (by simp)
    simp [List.takeWhile_cons, hc, ih (fun x hx => h x (by simp [hx]))]

theorem dropWhile_append_all {p : Char → Bool} {a : List Char} (b : List Char)
    (h : ∀ c ∈ a, p c = true) :
    List.dropWhile p (a ++ b) = List.dropWhile p b := by
  induction a with
  | nil => simp
  | cons c cs ih =>
    have hc : p c = true := h c (by simp)
    simp [List.dropWhile_cons, hc, ih (fun x hx => h x (by simp [hx]))]

theorem dropWhile_append_fix {p : Char → Bool} (a : List Char) {b : List Char}
    (h : List.dropWhile p b = b) :
    List.dropWhile p (a ++ b) = List.dropWhile p a ++ b := by
  induction a with
  | nil => simpa using h
  | cons c cs ih =>
    cases hpc : p c with
    | true => simp [List.dropWhile_cons, hpc, ih]
    | false => simp [List.dropWhile_cons, hpc]

theorem splitOnChar_ne_nil (sep : Char) (s : List Char) :
    splitOnChar sep s ≠ [] := by
  cases s with
  | nil => simp [splitOnChar]
  | cons c cs =>
    simp only [splitOnChar]
    by_cases hc : c = sep
    · simp [hc]
    · simp only [if_neg hc]
      cases h : splitOnChar sep cs with
      | nil => simp
      | cons x xs => simp

theorem joinSep_cons_cons (sep : List Char) (x y : List Char)
    (ys : List (List Char)) :
    joinSep sep (x :: y :: ys) = x ++ sep ++ joinSep sep (y :: ys) := rfl

theorem joinSep_cons_head (sep : List Char) (c : Char) (h : List Char)
    (t : List (List Char)) :
    joinSep sep ((c :: h) :: t) = c :: joinSep sep (h :: t) := by
  cases t with
  | nil => rfl
  | cons y ys => simp [joinSep_cons_cons]

theorem join_split_id (sep : Char) (s : List Char) :
    joinSep [sep] (splitOnChar sep s) = s := by
  induction s with
  | nil => rfl
  | cons c cs ih =>
    by_cases hc : c = sep
    · subst hc
      cases h : splitOnChar c cs with
      | nil => exact absurd h (splitOnChar_ne_nil c cs)
      | cons x xs =>
        rw [h] at ih
        simp [splitOnChar, h, joinSep_cons_cons, ih]
    · cases h : splitOnChar sep cs with
      | nil => exact absurd h (splitOnChar_ne_nil sep cs)
      | cons x xs =>
        rw [h] at ih
        simp [splitOnChar, hc, h, joinSep_cons_head, ih]

theorem splitOnChar_no_sep (sep : Char) (s : List Char)
    (h : ∀ c ∈ s, c ≠ sep) : splitOnChar sep s = [s] := by
  induction s with
  | nil => rfl
  | cons c cs ih =>
    have hc : c ≠ sep := h c (by simp)
    simp only [splitOnChar, if_neg hc]
    rw [ih (fun x hx => h x (by simp [hx]))]

theorem splitOnChar_append_sep (sep : Char) (s r : List Char)
    (h : ∀ c ∈ s, c ≠ sep) :
    splitOnChar sep (s ++ sep :: r) = s :: splitOnChar sep r := by
  induction s with
  | nil => simp [splitOnChar]
  | cons c cs ih =>
    have hc : c ≠ sep := h c (by simp)
    have ih2 := ih (fun x hx => h x (by simp [hx]))
    cases hsp : splitOnChar sep r with
    | nil => exact absurd hsp (splitOnChar_ne_nil sep r)
    | cons x xs =>
      rw [hsp] at ih2
      simp [splitOnChar, hc, ih2, hsp]

theorem split_join_id (sep : Char) (segs : List (List Char))
    (hne : segs ≠ []) (h : ∀ s ∈ segs, ∀ c ∈ s, c ≠ sep) :
    splitOnChar sep (joinSep [sep] segs) = segs := by
  induction segs with
  | nil => exact absurd rfl hne
  | cons x xs ih =>
    cases xs with
    | nil =>
      simp only [joinSep]
      exact splitOnChar_no_sep sep x (h x (by simp))
    | cons y ys =>
      rw [joinSep_cons_cons]
      rw [List.append_assoc]
      have : ([sep] ++ joinSep [sep] (y :: ys)) = sep :: joinSep [sep] (y :: ys) := rfl
      rw [this]
      rw [splitOnChar_append_sep sep x _ (h x (by simp))]
      rw [ih (by simp) (fun s hs c hc => h s (by simp [hs]) c hc)]

theorem map_colonSlash_eq_join_split (t : List Char) :
    joinSep ['/'] (splitOnChar ':' t) = t.map colonSlash := by
  induction t with
  | nil => rfl
  | cons c cs ih =>
    by_cases hc : c = ':'
    · subst hc
      cases h : splitOnChar ':' cs with
      | nil => exact absurd h (splitOnChar_ne_nil ':' cs)
      | cons x xs =>
        rw [h] at ih
        simp [splitOnChar, h, joinSep_cons_cons, ih, colonSlash]
    · cases h : splitOnChar ':' cs with
      | nil => exact absurd h (splitOnChar_ne_nil ':' cs)
      | cons x xs =>
        rw [h] at ih
        simp [splitOnChar, hc, h, joinSep_cons_head, ih, colonSlash]

theorem dokuwiki_id_to_path_map (t suffix : List Char) :
    dokuwiki_id_to_path t suffix = t.map colonSlash ++ suffix := by
  unfold dokuwiki_id_to_path
  rw [map_colonSlash_eq_join_split]

theorem joinSep_single (sep : List Char) (x : List Char) :
    joinSep sep [x] = x := rfl

theorem append_sep_inj {sep : Char} {a b x y : List Char}
    (ha : sep ∉ a) (hb : sep ∉ b)
    (h : a ++ sep :: x = b ++ sep :: y) : a = b ∧ x = y := by
  induction a generalizing b with
  | nil =>
    cases b with
    | nil => simpa using h
    | cons d ds =>
      exfalso
      simp only [List.nil_append, List.cons_append] at h
      injection h with h1 h2
      exact hb (by simp [h1])
  | cons c cs ih =>
    cases b with
    | nil =>
      exfalso
      simp only [List.cons_append, List.nil_append] at h
      injection h with h1 h2
      exact ha (by simp [h1])
    | cons d ds =>
      simp only [List.cons_append] at h
      injection h with h1 h2
      have h3 := ih (fun hm => ha (by simp [hm])) (fun hm => hb (by simp [hm])) h2
      exact ⟨by simp [h1, h3.1], h3.2⟩

theorem sep_mem_joinSep (sep : Char) (b b2 : List Char)
    (t : List (List Char)) : sep ∈ joinSep [sep] (b :: b2 :: t) := by
  rw [joinSep_cons_cons]
  simp

theorem joinSep_inj {sep : Char} :
    ∀ xs ys : List (List Char), xs ≠ [] → ys ≠ [] →
    (∀ s ∈ xs, sep ∉ s) → (∀ s ∈ ys, sep ∉ s) →
    joinSep [sep] xs = joinSep [sep] ys → xs = ys := by
  intro xs
  induction xs with
  | nil => intro ys h; exact absurd rfl h
  | cons a as ih =>
    intro ys _ hys hx hy h
    cases ys with
    | nil => exact absurd rfl hys
    | cons b bs =>
      cases as with
      | nil =>
        cases bs with
        | nil =>
          rw [joinSep_single, joinSep_single] at h
          rw [h]
        | cons b2 bt =>
          exfalso
          have hmem : sep ∈ joinSep [sep] (b :: b2 :: bt) :=
            sep_mem_joinSep sep b b2 bt
          rw [← h, joinSep_single] at hmem
          exact hx a (by simp) hmem
      | cons a2 atl =>
        cases bs with
        | nil =>
          exfalso
          have hmem : sep ∈ joinSep [sep] (a :: a2 :: atl) :=
            sep_mem_joinSep sep a a2 atl
          rw [h, joinSep_single] at hmem
          exact hy b (by simp) hmem
        | cons b2 btl =>
          rw [joinSep_cons_cons, joinSep_cons_cons] at h
          have h2 : a ++ sep :: joinSep [sep] (a2 :: atl) =
              b ++ sep :: joinSep [sep] (b2 :: btl) := by
            simpa [List.append_assoc] using h
          obtain ⟨e1, e2⟩ :=
            append_sep_inj (hx a (by simp)) (hy b (by simp)) h2
          have e3 := ih (b2 :: btl) (by simp) (by simp)
            (fun s hs => hx s (by simp [hs]))
            (fun s hs => hy s (by simp [hs])) e2
          rw [e1, e3]

/-- C3 (counterexample): the identifier-to-path mapping is not injective
over all pairs of distinct well-formed page identifiers (nonempty
segments, no segment containing `:`): the single-segment identifier
whose segment is `a/b` and the two-segment identifier `a:b` are both
well-formed and distinct, yet map to the same relative path `a/b.md`. -/
theorem id_path_injective_cex :
    wellFormedSegs [['a', '/', 'b']] = true ∧
    wellFormedSegs [['a'], ['b']] = true ∧
    [['a', '/', 'b']] ≠ [['a'], ['b']] ∧
    dokuwiki_id_to_path (idOfSegs [['a', '/', 'b']]) ['.', 'm', 'd'] =
      dokuwiki_id_to_path (idOfSegs [['a'], ['b']]) ['.', 'm', 'd'] := by
  decide

/-- C3 (amended): for every pair of distinct well-formed page
identifiers (nonempty segment sequences, no segment containing the `:`
delimiter) **whose segments also contain no `/`**, and any fixed
extension suffix, `_dokuwiki_id_to_path` produces distinct relative
paths. -/
theorem id_path_injective_amended (segs1 segs2 : List (List Char))
    (suffix : List Char)
    (h1 : wellFormedSegs segs1 = true) (h2 : wellFormedSegs segs2 = true)
    (hs1 : ∀ s ∈ segs1, '/' ∉ s) (hs2 : ∀ s ∈ segs2, '/' ∉ s)
    (hne : segs1 ≠ segs2) :
    dokuwiki_id_to_path (idOfSegs segs1) suffix ≠
      dokuwiki_id_to_path (idOfSegs segs2) suffix := by
  have w1 : segs1 ≠ [] ∧ ∀ s ∈ segs1, s ≠ [] ∧ ':' ∉ s := by
    simpa [wellFormedSegs, List.all_eq_true] using h1
  have w2 : segs2 ≠ [] ∧ ∀ s ∈ segs2, s ≠ [] ∧ ':' ∉ s := by
    simpa [wellFormedSegs, List.all_eq_true] using h2
  intro h
  apply hne
  have hj : joinSep ['/'] (splitOnChar ':' (idOfSegs segs1)) ++ suffix =
      joinSep ['/'] (splitOnChar ':' (idOfSegs segs2)) ++ suffix := h
  rw [List.append_left_inj] at hj
  rw [idOfSegs, idOfSegs,
    split_join_id ':' segs1 w1.1
      (fun s hs c hc hcc => (w1.2 s hs).2 (hcc ▸ hc)),
    split_join_id ':' segs2 w2.1
      (fun s hs c hc hcc => (w2.2 s hs).2 (hcc ▸ hc))] at hj
  exact joinSep_inj segs1 segs2 w1.1 w2.1 hs1 hs2 hj

/-- C3 (witness): the amended injectivity at the distinct well-formed
identifiers `a` and `b` with the `.md` suffix. -/
theorem id_path_injective_amended_witness :
    dokuwiki_id_to_path (idOfSegs [['a']]) ['.', 'm', 'd'] ≠
      dokuwiki_id_to_path (idOfSegs [['b']]) ['.', 'm', 'd'] :=
  id_path_injective_amended [['a']] [['b']] ['.', 'm', 'd']
    (by decide) (by decide) (by decide) (by decide) (by decide)

/-!  ### Filesystem-driver lemmas -/

theorem convert_pages_force_no_error (pages : List (List Char × List Char))
    (fs : FS) : (convert_pages pages true fs).1 = none := by
  induction pages generalizing fs with
  | nil => rfl
  | cons pg rest ih =>
    obtain ⟨pid, src⟩ := pg
    simp only [convert_pages, write_file, Bool.not_true, Bool.and_false,
      Bool.false_eq_true, if_false]
    exact ih _

theorem convert_pages_mono (pages : List (List Char × List Char))
    (fs : FS) (p : List Char) (h : hasFile fs p = true) :
    hasFile (convert_pages pages true fs).2 p = true := by
  induction pages generalizing fs with
  | nil => exact h
  | cons pg rest ih =>
    obtain ⟨pid, src⟩ := pg
    simp only [convert_pages, write_file, Bool.not_true, Bool.and_false,
      Bool.false_eq_true, if_false]
    exact ih _ (by simp [hasFile, List.any_cons] at h ⊢; exact Or.inr h)

theorem convert_pages_force_writes (pages : List (List Char × List Char))
    (fs : FS) : ∀ q ∈ pages,
      hasFile (convert_pages pages true fs).2
        (dokuwiki_id_to_path q.1 ['.', 'm', 'd']) = true := by
  induction pages generalizing fs with
  | nil => intro q hq; simp at hq
  | cons pg rest ih =>
    obtain ⟨pid, src⟩ := pg
    intro q hq
    simp only [convert_pages, write_file, Bool.not_true, Bool.and_false,
      Bool.false_eq_true, if_false]
    rcases List.mem_cons.mp hq with hq1 | hq2
    · subst hq1
      exact convert_pages_mono rest _ _ (by simp [hasFile, List.any_cons])
    · exact ih _ q hq2

theorem copy_media_mono (assets : List (List Char × List Char)) (force : Bool)
    (fs : FS) (p : List Char) (h : hasFile fs p = true) :
    hasFile (copy_media assets force fs) p = true := by
  induction assets generalizing fs with
  | nil => exact h
  | cons a rest ih =>
    obtain ⟨rel, content⟩ := a
    simp only [copy_media]
    cases hc : (pathExists fs (mediaDestRel rel) && !force) with
    | true => rw [if_pos rfl]; exact ih fs h
    | false =>
      rw [if_neg (by simp)]
      exact ih _ (by simp [hasFile, List.any_cons] at h ⊢; exact Or.inr h)

theorem copy_media_preserves (assets : List (List Char × List Char))
    (fs : FS) (p : List Char) (h : hasFile fs p = true) :
    lookupFile (copy_media assets false fs) p = lookupFile fs p := by
  induction assets generalizing fs with
  | nil => rfl
  | cons a rest ih =>
    obtain ⟨rel, content⟩ := a
    by_cases hc : pathExists fs (mediaDestRel rel) = true
    · simp only [copy_media, hc, Bool.not_false, Bool.and_true, if_true]
      exact ih fs h
    · have hcb : pathExists fs (mediaDestRel rel) = false :=
        Bool.eq_false_iff.mpr hc
      have hne : mediaDestRel rel ≠ p := by
        intro he
        apply hc
        rw [he]
        unfold pathExists
        unfold hasFile at h
        simp [h]
      simp only [copy_media, hcb, Bool.false_and, Bool.false_eq_true, if_false]
      rw [ih _ (by simp [hasFile, List.any_cons] at h ⊢; exact Or.inr h)]
      simp [lookupFile, lookupA, hne]

/-- C10: `_write_file` performs its existence check before creating any
parent directory or writing any bytes: whenever it fails with the
`FileExistsError` (destination exists and `force` is disabled), the
error names the destination path and the filesystem is returned exactly
as it was — no directory created, no file written. -/
theorem write_file_check_first (fs : FS) (p c e : List Char)
    (h : (write_file fs p c false).1 = some e) :
    e = p ∧ (write_file fs p c false).2 = fs := by
  cases hex : pathExists fs p with
  | true => refine ⟨?_, ?_⟩ <;> simp_all [write_file]
  | false => simp [write_file, hex] at h

/-- C10 (witness): the check-first behaviour at a concrete one-file
filesystem whose only path is being rewritten without force. -/
theorem write_file_check_first_witness :
    (['a'] : List Char) = ['a'] ∧
    (write_file ⟨[(['a'], ['x'])], []⟩ ['a'] ['y'] false).2 =
      ⟨[(['a'], ['x'])], []⟩ :=
  write_file_check_first ⟨[(['a'], ['x'])], []⟩ ['a'] ['y'] ['a'] (by decide)

/-- C4: without force, a page whose destination already exists makes the
run fail with the `FileExistsError` naming that destination path,
propagated so that the remaining pages (and all media) are not
processed and the state is the one reached at the failure; with force,
the whole run never errors and every page's destination file is
written. -/
theorem overwrite_policy (pid src : List Char)
    (rest assets pages assets2 : List (List Char × List Char)) (fs gs : FS)
    (h : pathExists fs (dokuwiki_id_to_path pid ['.', 'm', 'd']) = true) :
    convert_site ((pid, src) :: rest) assets false fs =
      (some (dokuwiki_id_to_path pid ['.', 'm', 'd']), fs) ∧
    (convert_site pages assets2 true gs).1 = none ∧
    ∀ q ∈ pages,
      hasFile (convert_site pages assets2 true gs).2
        (dokuwiki_id_to_path q.1 ['.', 'm', 'd']) = true := by
  refine ⟨?_, ?_, ?_⟩
  · simp only [convert_site, convert_pages, write_file, h, Bool.not_false,
      Bool.and_true, if_true]
  · simp only [convert_site]
    cases hcp : convert_pages pages true gs with
    | mk err fs2 =>
      have := convert_pages_force_no_error pages gs
      rw [hcp] at this
      simp at this
      subst this
      rfl
  · intro q hq
    simp only [convert_site]
    cases hcp : convert_pages pages true gs with
    | mk err fs2 =>
      have herr := convert_pages_force_no_error pages gs
      rw [hcp] at herr
      simp at herr
      subst herr
      have hw := convert_pages_force_writes pages gs q hq
      rw [hcp] at hw
      exact copy_media_mono assets2 true fs2 _ hw

/-- C4 (witness): with one page `a` colliding with a pre-existing
`a.md` the run aborts unchanged; with force on a fresh state the same
page is written and no error is raised. -/
theorem overwrite_policy_witness :
    convert_site [(['a'], ['t'])] [] false ⟨[(['a', '.', 'm', 'd'], [])], []⟩ =
      (some ['a', '.', 'm', 'd'], ⟨[(['a', '.', 'm', 'd'], [])], []⟩) ∧
    (convert_site [(['a'], ['t'])] [] true ⟨[], []⟩).1 = none ∧
    hasFile (convert_site [(['a'], ['t'])] [] true ⟨[], []⟩).2
      (dokuwiki_id_to_path ['a'] ['.', 'm', 'd']) = true := by
  have h := overwrite_policy ['a'] ['t'] [] [] [(['a'], ['t'])] []
    ⟨[(['a', '.', 'm', 'd'], [])], []⟩ ⟨[], []⟩ (by decide)
  exact ⟨h.1, h.2.1, h.2.2 (['a'], ['t']) (by decide)⟩

/-- C5: copying a media asset whose destination already exists, without
force, silently skips exactly that file (the fold continues on the
remaining assets with the state unchanged — `_copy_media` returns
normally, it has no error outcome), and every file already present
keeps its content through the whole copy. -/
theorem media_skip_existing (rel content : List Char)
    (rest : List (List Char × List Char)) (fs : FS)
    (h : pathExists fs (mediaDestRel rel) = true) :
    copy_media ((rel, content) :: rest) false fs = copy_media rest false fs ∧
    ∀ p, hasFile fs p = true →
      lookupFile (copy_media ((rel, content) :: rest) false fs) p =
        lookupFile fs p := by
  constructor
  · simp only [copy_media, h, Bool.not_false, Bool.and_true, if_true]
  · intro p hp
    exact copy_media_preserves _ _ _ hp

/-- C5 (witness): a concrete asset `x` whose destination `_media/x`
already holds content `o`: the copy is skipped, the run continues, and
the existing bytes are untouched. -/
theorem media_skip_existing_witness :
    copy_media [(['x'], ['n'])] false
        ⟨[(mediaDestRel ['x'], ['o'])], []⟩ =
      copy_media [] false ⟨[(mediaDestRel ['x'], ['o'])], []⟩ ∧
    lookupFile (copy_media [(['x'], ['n'])] false
        ⟨[(mediaDestRel ['x'], ['o'])], []⟩) (mediaDestRel ['x']) =
      lookupFile ⟨[(mediaDestRel ['x'], ['o'])], []⟩ (mediaDestRel ['x']) := by
  have h := media_skip_existing ['x'] ['n'] []
    ⟨[(mediaDestRel ['x'], ['o'])], []⟩ (by decide)
  exact ⟨h.1, h.2 (mediaDestRel ['x']) (by decide)⟩

/-- C9 (counterexample): the rewritten in-page image path is not always
free of a `_media/` prefix: the image construct with target
`_media:img.png` is rewritten by the pipeline to `![](_media/img.png)`,
whose path does begin with `_media/`. -/
theorem media_path_cex :
    dk_to_md_regex ("\x7b\x7b_media:img.png\x7d\x7d").data [] =
      ("![](_media/img.png)").data ∧
    startsWith ("_media/").data ("_media/img.png").data = true := by
  constructor
  · decide
  · decide

/-- C9 (amended): `_replace_media` emits exactly `![alt](path)` with
path the target with `:` replaced by `/` — the code itself never
prepends `_media/` (though a target whose first segment is `_media`
produces such a prefix) — while `_copy_media` copies the asset with
media-root-relative path `r` to `_media/r`; consequently the in-page
reference for an asset (target `t`, relative path `map colonSlash t`)
is never equal to the relative destination path of that asset. -/
theorem media_path_amended (t alt : List Char) :
    replace_media t alt true =
      '!' :: '[' :: (alt ++ ']' :: '(' :: (List.map colonSlash t ++ [')'])) ∧
    List.map colonSlash t ≠ mediaDestRel (List.map colonSlash t) := by
  constructor
  · simp [replace_media, dokuwiki_id_to_path_map]
  · intro h
    have hl := congrArg List.length h
    simp only [mediaDestRel, List.length_cons] at hl
    omega

/-!  ### Link and image substitution lemmas -/

theorem scanSub_exact (tryM : List Char → Option (List Char × List Char))
    (c : Char) (cs rep : List Char)
    (h : tryM (c :: cs) = some (rep, [])) :
    scanSub tryM (c :: cs) = rep := by
  unfold scanSub
  simp only [List.length_cons, scanSubAux, h]
  simp [scanSubAux_nil]

theorem linkTry_labeled (t l tail0 : List Char)
    (ht : t ≠ []) (ht1 : ∀ c ∈ t, c ≠ '|') (ht2 : ∀ c ∈ t, c ≠ ']')
    (hl : l ≠ []) (hl2 : ∀ c ∈ l, c ≠ ']') :
    linkTry ('[' :: '[' :: (t ++ '|' :: (l ++ ']' :: ']' :: tail0))) =
      some (replace_links t (some l), tail0) := by
  have e1 : (t ++ '|' :: (l ++ ']' :: ']' :: tail0)).takeWhile
      (fun c => decide (c ≠ ']') && decide (c ≠ '|')) = t := by
    rw [takeWhile_append_all _ (fun c hc => by simp [ht1 c hc, ht2 c hc])]
    simp
  have e2 : (t ++ '|' :: (l ++ ']' :: ']' :: tail0)).dropWhile
      (fun c => decide (c ≠ ']') && decide (c ≠ '|')) =
      '|' :: (l ++ ']' :: ']' :: tail0) := by
    rw [dropWhile_append_all _ (fun c hc => by simp [ht1 c hc, ht2 c hc])]
    simp
  have e3 : (l ++ ']' :: ']' :: tail0).takeWhile
      (fun c => decide (c ≠ ']')) = l := by
    rw [takeWhile_append_all _ (fun c hc => by simp [hl2 c hc])]
    simp
  have e4 : (l ++ ']' :: ']' :: tail0).dropWhile
      (fun c => decide (c ≠ ']')) = ']' :: ']' :: tail0 := by
    rw [dropWhile_append_all _ (fun c hc => by simp [hl2 c hc])]
    simp
  simp only [linkTry, e1, e2, e3, e4, if_neg ht, if_neg hl]

theorem linkTry_unlabeled (t tail0 : List Char)
    (ht : t ≠ []) (ht1 : ∀ c ∈ t, c ≠ '|') (ht2 : ∀ c ∈ t, c ≠ ']') :
    linkTry ('[' :: '[' :: (t ++ ']' :: ']' :: tail0)) =
      some (replace_links t none, tail0) := by
  have e1 : (t ++ ']' :: ']' :: tail0).takeWhile
      (fun c => decide (c ≠ ']') && decide (c ≠ '|')) = t := by
    rw [takeWhile_append_all _ (fun c hc => by simp [ht1 c hc, ht2 c hc])]
    simp
  have e2 : (t ++ ']' :: ']' :: tail0).dropWhile
      (fun c => decide (c ≠ ']') && decide (c ≠ '|')) = ']' :: ']' :: tail0 := by
    rw [dropWhile_append_all _ (fun c hc => by simp [ht1 c hc, ht2 c hc])]
    simp
  simp only [linkTry, e1, e2, if_neg ht]

theorem imageTry_with_alt (t a tail0 : List Char)
    (ht : t ≠ []) (ht1 : ∀ c ∈ t, c ≠ '|') (ht2 : ∀ c ∈ t, c ≠ '}')
    (ha : a ≠ []) (ha2 : ∀ c ∈ a, c ≠ '}') :
    imageTry ('{' :: '{' :: (t ++ '|' :: (a ++ '}' :: '}' :: tail0))) =
      some (replace_media t a true, tail0) := by
  have e1 : (t ++ '|' :: (a ++ '}' :: '}' :: tail0)).takeWhile
      (fun c => decide (c ≠ '}') && decide (c ≠ '|')) = t := by
    rw [takeWhile_append_all _ (fun c hc => by simp [ht1 c hc, ht2 c hc])]
    simp
  have e2 : (t ++ '|' :: (a ++ '}' :: '}' :: tail0)).dropWhile
      (fun c => decide (c ≠ '}') && decide (c ≠ '|')) =
      '|' :: (a ++ '}' :: '}' :: tail0) := by
    rw [dropWhile_append_all _ (fun c hc => by simp [ht1 c hc, ht2 c hc])]
    simp
  have e3 : (a ++ '}' :: '}' :: tail0).takeWhile
      (fun c => decide (c ≠ '}')) = a := by
    rw [takeWhile_append_all _ (fun c hc => by simp [ha2 c hc])]
    simp
  have e4 : (a ++ '}' :: '}' :: tail0).dropWhile
      (fun c => decide (c ≠ '}')) = '}' :: '}' :: tail0 := by
    rw [dropWhile_append_all _ (fun c hc => by simp [ha2 c hc])]
    simp
  simp only [imageTry, e1, e2, e3, e4, if_neg ht, if_neg ha]

theorem imageTry_no_alt (t tail0 : List Char)
    (ht : t ≠ []) (ht1 : ∀ c ∈ t, c ≠ '|') (ht2 : ∀ c ∈ t, c ≠ '}') :
    imageTry ('{' :: '{' :: (t ++ '}' :: '}' :: tail0)) =
      some (replace_media t [] true, tail0) := by
  have e1 : (t ++ '}' :: '}' :: tail0).takeWhile
      (fun c => decide (c ≠ '}') && decide (c ≠ '|')) = t := by
    rw [takeWhile_append_all _ (fun c hc => by simp [ht1 c hc, ht2 c hc])]
    simp
  have e2 : (t ++ '}' :: '}' :: tail0).dropWhile
      (fun c => decide (c ≠ '}') && decide (c ≠ '|')) = '}' :: '}' :: tail0 := by
    rw [dropWhile_append_all _ (fun c hc => by simp [ht1 c hc, ht2 c hc])]
    simp
  simp only [imageTry, e1, e2, if_neg ht]

/-- C6: every internal-link construct `[[target|label]]` (label
optional, defaulting to the target text) is rewritten by the link
substitution to `[label](path)` where path is the target with each `:`
replaced by `/` and the `.md` extension appended.  The hypotheses are
the character classes of the link regex: a nonempty target containing
neither `]` nor `|`, and (when present) a nonempty label containing no
`]`. -/
theorem internal_link_rule (t l : List Char)
    (ht : t ≠ []) (ht1 : ∀ c ∈ t, c ≠ '|') (ht2 : ∀ c ∈ t, c ≠ ']')
    (hl : l ≠ []) (hl2 : ∀ c ∈ l, c ≠ ']') :
    scanSub linkTry ('[' :: '[' :: (t ++ '|' :: (l ++ [']', ']']))) =
      '[' :: (l ++ ']' :: '(' ::
        ((t.map colonSlash ++ ['.', 'm', 'd']) ++ [')'])) ∧
    scanSub linkTry ('[' :: '[' :: (t ++ [']', ']'])) =
      '[' :: (t ++ ']' :: '(' ::
        ((t.map colonSlash ++ ['.', 'm', 'd']) ++ [')'])) := by
  constructor
  · have h := linkTry_labeled t l [] ht ht1 ht2 hl hl2
    rw [scanSub_exact linkTry '[' _ _ h]
    simp [replace_links, dokuwiki_id_to_path_map]
  · have h := linkTry_unlabeled t [] ht ht1 ht2
    rw [scanSub_exact linkTry '[' _ _ h]
    simp [replace_links, dokuwiki_id_to_path_map]

/-- C6 (witness): `[[ns:sub:page|Label]]` becomes
`[Label](ns/sub/page.md)` and the unlabeled `[[ns:page]]` becomes
`[ns:page](ns/page.md)`. -/
theorem internal_link_rule_witness :
    scanSub linkTry ("[[ns:sub:page|Label]]").data =
      ("[Label](ns/sub/page.md)").data ∧
    scanSub linkTry ("[[ns:page]]").data =
      ("[ns:page](ns/page.md)").data := by
  obtain ⟨h1, h2⟩ := internal_link_rule ("ns:sub:page").data ("Label").data
    (by decide) (by decide) (by decide) (by decide) (by decide)
  obtain ⟨h3, h4⟩ := internal_link_rule ("ns:page").data ("x").data
    (by decide) (by decide) (by decide) (by decide) (by decide)
  constructor
  · have e : ("[[ns:sub:page|Label]]").data = '[' :: '[' ::
        (("ns:sub:page").data ++ '|' :: (("Label").data ++ [']', ']'])) := by
      decide
    rw [e, h1]
    decide
  · have e : ("[[ns:page]]").data = '[' :: '[' ::
        (("ns:page").data ++ [']', ']']) := by decide
    rw [e, h4]
    decide

/-- C7: every image construct `{{target|altText}}` (altText optional)
is rewritten by the image substitution to `![altText](path)` where path
is the target with each `:` replaced by `/` and no extension appended;
an absent altText yields the empty label.  The hypotheses are the
character classes of the image regex: a nonempty target containing
neither `}` nor `|`, and (when present) a nonempty altText containing
no `}`. -/
theorem image_rule (t a : List Char)
    (ht : t ≠ []) (ht1 : ∀ c ∈ t, c ≠ '|') (ht2 : ∀ c ∈ t, c ≠ '}')
    (ha : a ≠ []) (ha2 : ∀ c ∈ a, c ≠ '}') :
    scanSub imageTry ('{' :: '{' :: (t ++ '|' :: (a ++ ['}', '}']))) =
      '!' :: '[' :: (a ++ ']' :: '(' :: (t.map colonSlash ++ [')'])) ∧
    scanSub imageTry ('{' :: '{' :: (t ++ ['}', '}'])) =
      '!' :: '[' :: ']' :: '(' :: (t.map colonSlash ++ [')']) := by
  constructor
  · have h := imageTry_with_alt t a [] ht ht1 ht2 ha ha2
    rw [scanSub_exact imageTry '{' _ _ h]
    simp [replace_media, dokuwiki_id_to_path_map]
  · have h := imageTry_no_alt t [] ht ht1 ht2
    rw [scanSub_exact imageTry '{' _ _ h]
    simp [replace_media, dokuwiki_id_to_path_map]

/-- C7 (witness): `{{ns:img.png}}` (no alt) becomes `![](ns/img.png)`
and `{{ns:img.png|An image}}` becomes `![An image](ns/img.png)`. -/
theorem image_rule_witness :
    scanSub imageTry ("\x7b\x7bns:img.png\x7d\x7d").data =
      ("![](ns/img.png)").data ∧
    scanSub imageTry ("\x7b\x7bns:img.png|An image\x7d\x7d").data =
      ("![An image](ns/img.png)").data := by
  obtain ⟨h1, h2⟩ := image_rule ("ns:img.png").data ("An image").data
    (by decide) (by decide) (by decide) (by decide) (by decide)
  constructor
  · have e : ("\x7b\x7bns:img.png\x7d\x7d").data = '{' :: '{' ::
        (("ns:img.png").data ++ ['}', '}']) := by decide
    rw [e, h2]
    decide
  · have e : ("\x7b\x7bns:img.png|An image\x7d\x7d").data = '{' :: '{' ::
        (("ns:img.png").data ++ '|' :: (("An image").data ++ ['}', '}'])) := by
      decide
    rw [e, h1]
    decide

/-!  ### Totality / pass-through lemmas -/

theorem noMatchScan_all {tryM : List Char → Option (List Char × List Char)}
    {s : List Char} (h : noMatchScan tryM s = true) :
    ∀ i, tryM (s.drop i) = none := by
  intro i
  have hall := List.all_eq_true.mp h
  by_cases hi : i ≤ s.length
  · have hx := hall i (by rw [List.mem_range]; omega)
    simpa using hx
  · have h0 := hall s.length (by rw [List.mem_range]; omega)
    rw [List.drop_length] at h0
    rw [List.drop_eq_nil_of_le (by omega)]
    simpa using h0

theorem scanSubAux_nomatch (tryM : List Char → Option (List Char × List Char)) :
    ∀ (n : Nat) (s : List Char), s.length ≤ n →
    (∀ i, tryM (s.drop i) = none) → scanSubAux tryM n s = s := by
  intro n
  induction n with
  | zero =>
    intro s hs _
    have : s = [] := List.length_eq_zero.mp (Nat.le_zero.mp hs)
    subst this
    rfl
  | succ n ih =>
    intro s hs h
    cases s with
    | nil => rfl
    | cons c cs =>
      have h0 := h 0
      simp only [List.drop_zero] at h0
      simp only [scanSubAux, h0]
      congr 1
      refine ih cs (by simp at hs; omega) (fun i => ?_)
      have hx := h (i + 1)
      simpa [List.drop_succ_cons] using hx

theorem scanSub_nomatch (tryM : List Char → Option (List Char × List Char))
    (s : List Char) (h : ∀ i, tryM (s.drop i) = none) :
    scanSub tryM s = s :=
  scanSubAux_nomatch tryM s.length s le_rfl h

theorem headingScanAux_nil (n : Nat) (b : Bool) :
    headingScanAux n b [] = [] := by
  cases n <;> rfl

theorem headingScanAux_nomatch :
    ∀ (n : Nat) (s : List Char) (b : Bool), s.length ≤ n →
    (∀ i, headingMatch (s.drop i) = none) → headingScanAux n b s = s := by
  intro n
  induction n with
  | zero =>
    intro s b hs _
    have : s = [] := List.length_eq_zero.mp (Nat.le_zero.mp hs)
    subst this
    rfl
  | succ n ih =>
    intro s b hs h
    cases s with
    | nil => rfl
    | cons c cs =>
      have h0 := h 0
      simp only [List.drop_zero] at h0
      have hrec := ih cs (decide (c = '\n')) (by simp at hs; omega)
        (fun i => by
          have hx := h (i + 1)
          simpa [List.drop_succ_cons] using hx)
      cases b with
      | true =>
        simp only [headingScanAux, h0, if_true]
        rw [hrec]
      | false =>
        simp only [headingScanAux, Bool.false_eq_true, if_false]
        rw [hrec]

theorem headingSub_nomatch (s : List Char)
    (h : ∀ i, headingMatch (s.drop i) = none) : headingSub s = s :=
  headingScanAux_nomatch s.length s true le_rfl h

theorem tableSub_id {s : List Char}
    (h : ∀ l ∈ splitLines s, tableTry l = none) : tableSub s = s := by
  unfold tableSub
  have hm : (splitLines s).map tableLine = (splitLines s).map id :=
    List.map_congr_left (fun l hl => by simp [tableLine, h l hl])
  rw [hm, List.map_id]
  exact join_split_id '\n' s

/-- C8: the built-in conversion pipeline is total — it is a plain Lean
function of the whole input (and page identifier), mirroring Python
code that raises on no input — and whenever none of the eight patterns
matches anywhere in the text (unmatched or malformed constructs only),
the input is returned as literal, unconverted output. -/
theorem pipeline_total_passthrough (s ns : List Char)
    (h : unconvertible s = true) : dk_to_md_regex s ns = s := by
  simp only [unconvertible, Bool.and_eq_true] at h
  obtain ⟨⟨⟨⟨⟨⟨⟨hh, hb⟩, hi⟩, hc⟩, hn⟩, him⟩, hl⟩, ht⟩ := h
  have e1 : headingSub s = s := headingSub_nomatch s (noMatchScan_all hh)
  have e8 : tableSub s = s :=
    tableSub_id (fun l hl2 => by
      have := List.all_eq_true.mp ht l hl2
      simpa using this)
  simp only [dk_to_md_regex, e1,
    scanSub_nomatch boldTry s (noMatchScan_all hb),
    scanSub_nomatch italicTry s (noMatchScan_all hi),
    scanSub_nomatch codeTry s (noMatchScan_all hc),
    scanSub_nomatch nowikiTry s (noMatchScan_all hn),
    scanSub_nomatch imageTry s (noMatchScan_all him),
    scanSub_nomatch linkTry s (noMatchScan_all hl), e8]

/-- C8 (witness): a text full of malformed constructs — an unclosed
link, an unclosed image, an unterminated code tag and a dangling
heading marker — is passed through unchanged. -/
theorem pipeline_total_passthrough_witness :
    unconvertible ("[[broken \x7b\x7bhalf <code x ==dangling").data = true ∧
    dk_to_md_regex ("[[broken \x7b\x7bhalf <code x ==dangling").data [] =
      ("[[broken \x7b\x7bhalf <code x ==dangling").data :=
  ⟨by decide,
   pipeline_total_passthrough ("[[broken \x7b\x7bhalf <code x ==dangling").data
     [] (by decide)⟩

/-!  ### Heading lemmas

The backreference `\1` forces group 1 (of `k` equal signs) to close the
line; `headingG2` returns the lazy group 2, and the greedy `={2,6}` is
the descent of `headingTryDown`. -/

theorem isSpaceChar_eq : isSpaceChar '=' = false := by decide

theorem dropWhile_replicate_eq (k : Nat) :
    List.dropWhile isSpaceChar (List.replicate k '=') =
      List.replicate k '=' := by
  cases k with
  | zero => rfl
  | succ n => simp [List.replicate_succ, List.dropWhile_cons, isSpaceChar_eq]

theorem rtrimWS_eq_nil_iff (m : List Char) :
    rtrimWS m = [] ↔ m.all isSpaceChar = true := by
  induction m with
  | nil => simp [rtrimWS]
  | cons c cs ih =>
    by_cases hr : rtrimWS cs = []
    · have hcs := ih.mp hr
      cases hsc : isSpaceChar c with
      | true => simp [rtrimWS, hr, hsc, hcs]
      | false => simp [rtrimWS, hr, hsc, hcs]
    · have hcs : cs.all isSpaceChar ≠ true := fun hx => hr (ih.mpr hx)
      simp only [rtrimWS]
      rw [if_neg hr]
      simp only [List.all_cons, Bool.and_eq_true]
      constructor
      · intro hx; exact absurd hx (by simp)
      · intro hx; exact absurd hx.2 hcs

theorem rtrimWS_cons_of_not_all (c : Char) (cs : List Char)
    (h : (c :: cs).all isSpaceChar ≠ true) :
    rtrimWS (c :: cs) = c :: rtrimWS cs := by
  by_cases hr : rtrimWS cs = []
  · have hcs := (rtrimWS_eq_nil_iff cs).mp hr
    have hc : isSpaceChar c = false := by
      cases hsc : isSpaceChar c
      · rfl
      · exact absurd (by simp [List.all_cons, hsc, hcs]) h
    simp [rtrimWS, hr, hc]
  · simp only [rtrimWS]
    rw [if_neg hr]

theorem headingEnd_false {v : List Char} (hne : v ≠ []) (hnl : '\n' ∉ v) :
    headingEnd v = false := by
  cases v with
  | nil => exact absurd rfl hne
  | cons c cs =>
    have hc : c ≠ '\n' := fun h => hnl (by simp [h])
    simp [headingEnd, hc]

theorem startsWith_refl (p : List Char) : startsWith p p = true := by
  have h := startsWith_self_append p []
  simpa using h

theorem headingCheck_append_replicate (k : Nat)
    (m : List Char) (hnl : '\n' ∉ m) :
    headingCheck k (m ++ List.replicate k '=') =
      if m.all isSpaceChar = true then some [] else none := by
  by_cases hall : m.all isSpaceChar = true
  · rw [if_pos hall]
    unfold headingCheck
    rw [dropWhile_append_all _ (fun c hc => List.all_eq_true.mp hall c hc),
      dropWhile_replicate_eq]
    have h2 : (List.replicate k '=').drop k = [] := by simp
    simp [startsWith_refl, h2, headingEnd]
  · rw [if_neg hall]
    unfold headingCheck
    have hm2 : List.dropWhile isSpaceChar m ≠ [] := by
      intro h0
      exact hall (List.all_eq_true.mpr (List.dropWhile_eq_nil_iff.mp h0))
    rw [dropWhile_append_fix m (dropWhile_replicate_eq k)]
    cases hsw : startsWith (List.replicate k '=')
        (List.dropWhile isSpaceChar m ++ List.replicate k '=') with
    | false => simp [hsw]
    | true =>
      have hne2 : (List.dropWhile isSpaceChar m ++
          List.replicate k '=').drop k ≠ [] := by
        intro h0
        have hlen := congrArg List.length h0
        simp only [List.length_drop, List.length_append,
          List.length_replicate, List.length_nil] at hlen
        exact hm2 (List.length_eq_zero.mp (by omega))
      have hnl2 : '\n' ∉ (List.dropWhile isSpaceChar m ++
          List.replicate k '=').drop k := by
        intro hmem
        have hmem2 := List.mem_of_mem_drop hmem
        rw [List.mem_append] at hmem2
        rcases hmem2 with h1 | h1
        · exact hnl (List.Sublist.mem h1 (List.dropWhile_sublist _))
        · rw [List.mem_replicate] at h1
          exact absurd h1.2 (by decide)
      simp [hsw, headingEnd_false hne2 hnl2]

theorem headingG2_append_replicate (k : Nat) (hk : 1 ≤ k) :
    ∀ m : List Char, '\n' ∉ m →
      headingG2 k (m ++ List.replicate k '=') = some (rtrimWS m, []) := by
  intro m
  induction m with
  | nil =>
    intro _
    obtain ⟨k2, rfl⟩ : ∃ k2, k = k2 + 1 := ⟨k - 1, by omega⟩
    have hchk : headingCheck (k2 + 1) (List.replicate (k2 + 1) '=') =
        some [] := by
      have h := headingCheck_append_replicate (k2 + 1) [] (by simp)
      simpa using h
    simp only [List.nil_append, List.replicate_succ, headingG2]
    rw [show ('=' :: List.replicate k2 '=') = List.replicate (k2 + 1) '='
      from (List.replicate_succ '=' k2).symm, hchk]
    rfl
  | cons c cs ih =>
    intro hnl
    have hc : c ≠ '\n' := fun h => hnl (by simp [h])
    have hnlcs : '\n' ∉ cs := fun h => hnl (by simp [h])
    have hchk := headingCheck_append_replicate k (c :: cs) hnl
    by_cases hall : (c :: cs).all isSpaceChar = true
    · rw [if_pos hall] at hchk
      simp only [List.cons_append, List.append_eq, headingG2]
      rw [show headingCheck k (c :: (cs ++ List.replicate k '=')) = some []
        from by simpa using hchk]
      rw [(rtrimWS_eq_nil_iff _).mpr hall]
    · rw [if_neg hall] at hchk
      simp only [List.cons_append, List.append_eq, headingG2]
      rw [show headingCheck k (c :: (cs ++ List.replicate k '=')) = none
        from by simpa using hchk]
      rw [if_neg hc]
      rw [ih hnlcs, rtrimWS_cons_of_not_all c cs hall]
      rfl

theorem headingTryK_bounded (N : Nat) (hN : 1 ≤ N) (mid : List Char)
    (hnl : '\n' ∉ mid) :
    headingTryK N (List.replicate N '=' ++ mid ++ List.replicate N '=') =
      some (trimWS mid, []) := by
  unfold headingTryK
  rw [List.append_assoc]
  simp only [startsWith_self_append]
  rw [if_pos trivial]
  have hdrop : (List.replicate N '=' ++ (mid ++ List.replicate N '=')).drop N =
      mid ++ List.replicate N '=' := by
    simp
  have hnl2 : '\n' ∉ List.dropWhile isSpaceChar mid :=
    fun h => hnl (List.Sublist.mem h (List.dropWhile_sublist _))
  rw [hdrop, dropWhile_append_fix mid (dropWhile_replicate_eq N),
    headingG2_append_replicate N hN (List.dropWhile isSpaceChar mid) hnl2]
  rfl

theorem startsWith_replicate_gt (N j : Nat) (c : Char) (r : List Char)
    (hj : N < j) (hc : c ≠ '=') :
    startsWith (List.replicate j '=') (List.replicate N '=' ++ c :: r) =
      false := by
  induction N generalizing j with
  | zero =>
    obtain ⟨j2, rfl⟩ : ∃ j2, j = j2 + 1 := ⟨j - 1, by omega⟩
    have hne : ¬('=' = c) := fun h => hc h.symm
    simp [List.replicate_succ, startsWith, hne]
  | succ n ih =>
    obtain ⟨j2, rfl⟩ : ∃ j2, j = j2 + 1 := ⟨j - 1, by omega⟩
    simp only [List.replicate_succ, List.cons_append, startsWith]
    simp [ih j2 (by omega)]

theorem headingTryK_none_gt (N j : Nat) (hj : N < j) (c : Char)
    (hc : c ≠ '=') (rest : List Char) :
    headingTryK j (List.replicate N '=' ++ c :: rest) = none := by
  unfold headingTryK
  rw [if_neg]
  intro h
  rw [startsWith_replicate_gt N j c rest hj hc] at h
  exact Bool.false_ne_true h

theorem headingTryDown_hits (line : List Char) (N : Nat) (g rem : List Char)
    (h2 : 2 ≤ N) :
    ∀ K, N ≤ K →
      (∀ j, N < j → j ≤ K → headingTryK j line = none) →
      headingTryK N line = some (g, rem) →
      headingTryDown K line = some (N, g, rem) := by
  intro K
  induction K with
  | zero =>
    intro hK _ _
    exact absurd hK (by omega)
  | succ k ihk =>
    intro hK hnone hsome
    cases k with
    | zero => exact absurd hK (by omega)
    | succ k2 =>
      by_cases he : N = k2 + 2
      · subst he
        simp only [headingTryDown, hsome]
      · have h0 : headingTryK (k2 + 2) line = none :=
          hnone (k2 + 2) (by omega) (by omega)
        simp only [headingTryDown, h0]
        exact ihk (by omega) (fun j hj1 hj2 => hnone j hj1 (by omega)) hsome

theorem headingSub_of_match_all (s r : List Char) (hne : s ≠ [])
    (h : headingMatch s = some (r, [])) : headingSub s = r := by
  cases s with
  | nil => exact absurd rfl hne
  | cons c cs =>
    unfold headingSub
    simp only [List.length_cons, headingScanAux, h, if_true]
    simp [headingScanAux_nil]

/-- C2 (counterexample): the line `====== Title ==`, whose two bounding
equal-sign runs differ in length (6 and 2), IS converted by the heading
substitution — the greedy group backtracks to a two-sign match and the
line becomes `## ==== Title` — refuting "lines whose two equal-sign
runs differ in length are not converted". -/
theorem heading_differing_runs_cex :
    headingSub ("====== Title ==").data = ("## ==== Title").data ∧
    ("## ==== Title").data ≠ ("====== Title ==").data := by
  constructor <;> decide

/-- C2 (amended): a line bounded on both sides by the same run of `N`
equal signs (`2 ≤ N ≤ 6`; the interior starts and ends with a
non-equal-sign character, so the bounding runs are exactly `N`, and
contains no newline) is replaced by exactly `N` `#` markers, a space,
and the whitespace-trimmed interior.  Lines whose two runs differ in
length, however, may still be converted by re-matching a shorter prefix
of the leading run (see the counterexample). -/
theorem heading_inversion_amended (N : Nat) (mid : List Char)
    (h2 : 2 ≤ N) (h6 : N ≤ 6) (hne : mid ≠ [])
    (hh : mid.head? ≠ some '=') (hl : mid.getLast? ≠ some '=')
    (hnl : '\n' ∉ mid) :
    headingSub (List.replicate N '=' ++ mid ++ List.replicate N '=') =
      List.replicate N '#' ++ ' ' :: trimWS mid := by
  obtain ⟨c, cs, rfl⟩ : ∃ c cs, mid = c :: cs := by
    cases mid with
    | nil => exact absurd rfl hne
    | cons c cs => exact ⟨c, cs, rfl⟩
  have hc : c ≠ '=' := fun h => hh (by simp [h])
  have hshape : List.replicate N '=' ++ (c :: cs) ++ List.replicate N '=' =
      List.replicate N '=' ++ c :: (cs ++ List.replicate N '=') := by
    simp
  rw [hshape]
  have hK : headingTryK N (List.replicate N '=' ++
      c :: (cs ++ List.replicate N '=')) = some (trimWS (c :: cs), []) := by
    have h := headingTryK_bounded N (by omega) (c :: cs) hnl
    rw [hshape] at h
    exact h
  have hgt : ∀ j, N < j → j ≤ 6 →
      headingTryK j (List.replicate N '=' ++
        c :: (cs ++ List.replicate N '=')) = none := by
    intro j hj1 _
    exact headingTryK_none_gt N j hj1 c hc (cs ++ List.replicate N '=')
  have hdown := headingTryDown_hits _ N (trimWS (c :: cs)) [] h2 6 h6 hgt hK
  have hmatch : headingMatch (List.replicate N '=' ++
      c :: (cs ++ List.replicate N '=')) =
      some (List.replicate N '#' ++ ' ' :: trimWS (c :: cs), []) := by
    unfold headingMatch
    rw [hdown]
  exact headingSub_of_match_all _ _ (by simp) hmatch

/-- C2 (witness): the amended heading law at `==== Title ====`, which
converts to `#### Title`. -/
theorem heading_inversion_amended_witness :
    headingSub ("==== Title ====").data = ("#### Title").data := by
  have h := heading_inversion_amended 4 (" Title ").data (by decide)
    (by decide) (by decide) (by decide) (by decide) (by decide)
  have e : ("==== Title ====").data =
      List.replicate 4 '=' ++ (" Title ").data ++ List.replicate 4 '=' := by
    decide
  rw [e, h]
  decide

/-!  ### Code-block lemmas

`</code>` has no self-overlap (no proper prefix of it is also a
suffix), so an occurrence of `</code>` in `w ++ </code>` cannot
straddle the boundary; the first occurrence after an occurrence-free
`w` is the appended tag itself. -/

theorem rtrimWS_cons_eq (c : Char) (xs : List Char) :
    rtrimWS (c :: xs) =
      if rtrimWS xs = [] then (if isSpaceChar c then [] else [c])
      else c :: rtrimWS xs := rfl

theorem rtrimWS_dropTrailingNL (x : List Char) :
    rtrimWS (dropTrailingNL x) = rtrimWS x := by
  induction x with
  | nil => rfl
  | cons c cs ih =>
    by_cases hc : c = '\n' ∧ cs = []
    · obtain ⟨rfl, rfl⟩ := hc
      simp [dropTrailingNL, rtrimWS, isSpaceChar]
    · rw [show dropTrailingNL (c :: cs) = c :: dropTrailingNL cs from by
        simp [dropTrailingNL, hc]]
      rw [rtrimWS_cons_eq, rtrimWS_cons_eq, ih]

theorem containsSub_tail {pat : List Char} {c : Char} {cs : List Char}
    (h : containsSub pat (c :: cs) = false) : containsSub pat cs = false := by
  simp only [containsSub, Bool.or_eq_false_iff] at h
  exact h.2

theorem noBorderCode : ∀ x : List Char, x ≠ [] →
    startsWith codeClose (x ++ codeClose) = true →
    startsWith codeClose x = true := by
  intro x hne h
  obtain ⟨r, hr⟩ := startsWith_iff_exists.mp h
  by_cases hlen : 7 ≤ x.length
  · rw [startsWith_iff_exists]
    have h7 : (x ++ codeClose).take 7 = (codeClose ++ r).take 7 := by rw [hr]
    rw [List.take_append_of_le_length hlen] at h7
    rw [show List.take 7 (codeClose ++ r) = codeClose from
      List.take_left codeClose r] at h7
    exact ⟨x.drop 7, by rw [← h7]; exact (List.take_append_drop 7 x).symm⟩
  · exfalso
    have h1 : 1 ≤ x.length := by
      cases x with
      | nil => exact absurd rfl hne
      | cons a as => simp
    have hx : x = codeClose.take x.length := by
      have h7 : (x ++ codeClose).take x.length =
          (codeClose ++ r).take x.length := by rw [hr]
      rw [List.take_append_of_le_length (le_refl x.length),
        List.take_length,
        List.take_append_of_le_length (by simp [codeClose]; omega)] at h7
      exact h7
    have hcases : x.length = 1 ∨ x.length = 2 ∨ x.length = 3 ∨
        x.length = 4 ∨ x.length = 5 ∨ x.length = 6 := by omega
    rcases hcases with h0 | h0 | h0 | h0 | h0 | h0
    all_goals
      rw [h0] at hx
      subst hx
      have h7 := congrArg (List.take 7) hr
      rw [show List.take 7 (codeClose ++ r) = codeClose from
        List.take_left codeClose r] at h7
      exact absurd h7 (by decide)

theorem splitAtFirst_append_self (a : List Char)
    (h : containsSub codeClose a = false) :
    splitAtFirst codeClose (a ++ codeClose) = some (a, []) := by
  induction a with
  | nil => decide
  | cons c cs ih =>
    have hparts : startsWith codeClose (c :: cs) = false ∧
        containsSub codeClose cs = false := by
      simpa [containsSub, Bool.or_eq_false_iff] using h
    have hsw2 : startsWith codeClose ((c :: cs) ++ codeClose) = false := by
      cases hsw : startsWith codeClose ((c :: cs) ++ codeClose)
      · rfl
      · exact absurd (noBorderCode (c :: cs) (by simp) hsw)
          (by simp [hparts.1])
    have hcond : startsWith codeClose (c :: (cs ++ codeClose)) = false := by
      simpa using hsw2
    simp only [List.cons_append, splitAtFirst, List.append_eq]
    rw [if_neg (fun hx => by rw [hcond] at hx; exact Bool.false_ne_true hx)]
    rw [ih hparts.2]
    rfl

theorem dropLeadingNL_append (w b : List Char) (hb : dropLeadingNL b = b) :
    dropLeadingNL (w ++ b) = dropLeadingNL w ++ b := by
  cases w with
  | nil => simpa using hb
  | cons c cs =>
    by_cases hc : c = '\n'
    · simp [dropLeadingNL, hc]
    · simp [dropLeadingNL, hc]

theorem codeTry_block (w : List Char)
    (h : containsSub codeClose w = false) :
    codeTry ('<' :: 'c' :: 'o' :: 'd' :: 'e' :: '>' :: (w ++ codeClose)) =
      some ('`' :: '`' :: '`' :: '\n' ::
        (rtrimWS (dropLeadingNL w) ++ '\n' :: '`' :: '`' :: ['`']), []) := by
  have hdl : containsSub codeClose (dropLeadingNL w) = false := by
    cases w with
    | nil => exact h
    | cons c cs =>
      by_cases hc : c = '\n'
      · simpa [dropLeadingNL, hc] using containsSub_tail h
      · simpa [dropLeadingNL, hc] using h
  have hsplit : splitAtFirst codeClose (dropLeadingNL w ++ codeClose) =
      some (dropLeadingNL w, []) := splitAtFirst_append_self _ hdl
  unfold codeTry
  rw [if_pos (by simp [startsWith])]
  simp only [List.drop_succ_cons, List.drop_zero]
  rw [show codeOpenAttrs ('>' :: (w ++ codeClose)) = some (w ++ codeClose)
    from by simp [codeOpenAttrs]]
  dsimp only
  rw [dropLeadingNL_append w codeClose (by decide), hsplit]
  dsimp only
  rw [rtrimWS_dropTrailingNL]

/-- C1 (counterexample): the conversion pipeline applied to the exact
input `<code>\n\nfoo\nbar\n\n</code>` of the claim keeps the leading
blank line inside the fence: the output is three backticks, newline,
**blank line**, `foo`, `bar`, newline, three backticks — not a fence
containing exactly `foo\nbar` (the leading `\n?` of the pattern
consumes only one newline, while `rstrip` removes all trailing
blanks). -/
theorem code_block_trim_cex :
    dk_to_md_regex ("<code>\n\nfoo\nbar\n\n</code>").data [] =
      ("```\n\nfoo\nbar\n```").data ∧
    ("```\n\nfoo\nbar\n```").data ≠ ("```\nfoo\nbar\n```").data := by
  constructor <;> decide

/-- C1 (amended): for every `<code>` block whose interior `w` contains
no occurrence of the closing tag, the code-block substitution emits a
fenced block whose content is the interior with **at most one leading
newline removed** and **all trailing whitespace removed** (internal
blank lines preserved); in particular a leading blank line inside the
delimiters survives into the fence. -/
theorem code_block_trim_amended (w : List Char)
    (h : containsSub codeClose w = false) :
    scanSub codeTry ('<' :: 'c' :: 'o' :: 'd' :: 'e' :: '>' ::
        (w ++ codeClose)) =
      '`' :: '`' :: '`' :: '\n' ::
        (rtrimWS (dropLeadingNL w) ++ '\n' :: '`' :: '`' :: ['`']) :=
  scanSub_exact codeTry '<' _ _ (codeTry_block w h)

/-- C1 (witness): the amended fence law at the claim's own input — the
fence contains `\nfoo\nbar`, i.e. the leading blank line is kept. -/
theorem code_block_trim_amended_witness :
    scanSub codeTry ("<code>\n\nfoo\nbar\n\n</code>").data =
      ("```\n\nfoo\nbar\n```").data := by
  have e : ("<code>\n\nfoo\nbar\n\n</code>").data =
      '<' :: 'c' :: 'o' :: 'd' :: 'e' :: '>' ::
        (("\n\nfoo\nbar\n\n").data ++ codeClose) := by decide
  rw [e, code_block_trim_amended ("\n\nfoo\nbar\n\n").data (by decide)]
  decide

end Dokuwiki2Wikijs
